import Mathlib

/-!
Verification of the nitro-datastore core against its specification.

The repository ships the core engine's callers (src/examples/*.py); the engine
itself (class `NitroDataStore` in the `nitro_datastore` package) is not part of
the source tree.  Following the specification, the data model is a tagged tree
of mappings / sequences / scalars, while Python run-time data is an object
graph (which may contain cycles), modelled here as a heap of numbered objects.
-/

namespace Nitro

/-- Scalar leaves of the data model: string / number / bool / null
(spec section 3, "Node"). -/
inductive Scalar : Type
  | str (s : String)
  | intV (n : Int)
  | boolV (b : Bool)
  | null
deriving DecidableEq, Repr

/-- Modelled from the spec: a cycle-free JSON-shaped value (spec section 3,
"Node" — Mapping / Sequence / Scalar).  This is the shape of parsed JSON
documents and of the deep copies produced by the store. -/
inductive Value : Type
  | leaf (s : Scalar)
  | arr (xs : List Value)
  | dict (fs : List (String × Value))

/-- The errors of the core, mirroring the Python exception taxonomy of spec
section 7 (`invalidPath`, `circular`, `typeMismatch`) plus the artifacts of
the shallow embedding (`fuelOut`, `dangling`) and the loader-tier decode
failure (`jsonDecode`). -/
inductive Err : Type
  | invalidPath
  | circular
  | typeMismatch
  | notASequence
  | jsonDecode
  | fuelOut
  | dangling
deriving DecidableEq, Repr

/-- A Python run-time object: a scalar, a list of references, or a dict of
references.  References are indices into a `Heap`, so the object graph can
contain cycles exactly like Python data can. -/
inductive Obj : Type
  | leaf (s : Scalar)
  | arr (elems : List Nat)
  | dict (fs : List (String × Nat))
deriving DecidableEq, Repr

/-- A Python object graph: object `i` is `objs[i]`. -/
structure Heap : Type where
  objs : List Obj
deriving DecidableEq, Repr

/-- The ids an object refers to directly. -/
def Obj.childIds : Obj → List Nat
  | .leaf _ => []
  | .arr xs => xs
  | .dict fs => fs.map (·.2)

/-- Containers are sequences and mappings; scalars are leaves (spec section 3). -/
def Obj.isCont : Obj → Bool
  | .leaf _ => false
  | .arr _ => true
  | .dict _ => true

/-- Heap well-formedness: every reference points inside the heap. -/
def Heap.Wf (h : Heap) : Prop :=
  ∀ o ∈ h.objs, ∀ c ∈ o.childIds, c < h.objs.length

instance (h : Heap) : Decidable h.Wf := by
  unfold Heap.Wf; infer_instance

/-- Collect a list of fallible results, stopping at the first error (the order
in which a Python loop would raise). -/
def exSeq {α : Type} : List (Except Err α) → Except Err (List α)
  | [] => .ok []
  | .ok v :: rest => (exSeq rest).map (v :: ·)
  | .error e :: _ => .error e

/-- Modelled from the spec: `NitroDataStore._deep_copy`, the CycleGuard
protected deep copy (spec section 4.5) — not present in src/.  `active` is the
set of container identities currently on the recursion stack: a container is
checked against it before being entered and is released on unwind (here, by
passing the extended list only to the recursive calls).  `fuel` bounds the
recursion depth, an artifact of the embedding. -/
def deepCopy (h : Heap) : Nat → List Nat → Nat → Except Err Value
  | 0, _, _ => .error .fuelOut
  | fuel + 1, active, id =>
    match h.objs[id]? with
    | none => .error .dangling
    | some (.leaf s) => .ok (.leaf s)
    | some (.arr xs) =>
      if id ∈ active then .error .circular
      else (exSeq (xs.map (fun c => deepCopy h fuel (id :: active) c))).map Value.arr
    | some (.dict fs) =>
      if id ∈ active then .error .circular
      else
        (exSeq (fs.map (fun kc =>
          (deepCopy h fuel (id :: active) kc.2).map (fun v => (kc.1, v))))).map Value.dict

/-- `a` refers to `b` directly in heap `h`. -/
def Heap.Edge (h : Heap) (a b : Nat) : Prop :=
  ∃ o, h.objs[a]? = some o ∧ b ∈ o.childIds

/-- `b` is reachable from `a` by following references. -/
inductive Reaches (h : Heap) : Nat → Nat → Prop
  | refl (a : Nat) : Reaches h a a
  | head {a b c : Nat} : h.Edge a b → Reaches h b c → Reaches h a c

/-- Object `n` is a container (sequence or mapping) in `h`. -/
def Heap.IsCont (h : Heap) (n : Nat) : Prop :=
  ∃ o, h.objs[n]? = some o ∧ o.isCont = true

/-- A container reachable from `r` is an ancestor of itself: the circular
reference condition of spec section 4.5. -/
def HasCycleFrom (h : Heap) (r : Nat) : Prop :=
  ∃ n m, Reaches h r n ∧ h.Edge n m ∧ Reaches h m n

/-- Results that are either a success or the circular-reference failure. -/
def OkOrCirc {α : Type} : Except Err α → Prop
  | .ok _ => True
  | .error e => e = .circular

/-- A nonempty path: one edge followed by a reachability chain. -/
def TPlus (h : Heap) (a b : Nat) : Prop := ∃ c, h.Edge a c ∧ Reaches h c b

/-- Split a character list at every `'.'`, keeping empty segments
(the behavior of Python's `str.split('.')`). -/
def splitDots : List Char → List (List Char)
  | [] => [[]]
  | c :: rest =>
    if c = '.' then [] :: splitDots rest
    else
      match splitDots rest with
      | s :: ss => (c :: s) :: ss
      | [] => [[c]]

/-- Modelled from the spec: `parse(pathString)` of the PathParser/Validator
(spec section 4.1) — not present in src/.  Fails with `InvalidPathError` when
the string is empty or whitespace-only, or when any dot-separated segment is
empty (which covers `"."`, leading dots, trailing dots, and consecutive
dots); otherwise returns the ordered list of segments. -/
def parsePath (s : String) : Except Err (List String) :=
  if s.data.all (fun c => c.isWhitespace) then .error .invalidPath
  else
    let parts := splitDots s.data
    if parts.any (·.isEmpty) then .error .invalidPath
    else .ok (parts.map (fun cs => String.mk cs))

/-- Look up a key in a mapping's field list (first occurrence, as in a
Python dict). -/
def lookupV (fs : List (String × Value)) (k : String) : Option Value :=
  (fs.find? (fun kc => kc.1 == k)).map (·.2)

/-- Modelled from the spec: the Traversal Engine's `get(root, path)`
(spec section 4.2) — not present in src/.  Descends segment by segment; at a
Mapping looks up the key, at a Sequence parses the segment as an integer
index; any absent or impossible step yields `none` (absence is not an
error). -/
def getPath (v : Value) : List String → Option Value
  | [] => some v
  | s :: rest =>
    match v with
    | .dict fs =>
      match lookupV fs s with
      | some c => getPath c rest
      | none => none
    | .arr xs =>
      match s.toNat? with
      | some i =>
        match xs[i]? with
        | some c => getPath c rest
        | none => none
      | none => none
    | .leaf _ => none

/-- Replace the value at a key (first occurrence) or append the binding,
as Python's `d[k] = v`. -/
def setField : List (String × Value) → String → Value → List (String × Value)
  | [], k, v => [(k, v)]
  | (k0, v0) :: rest, k, v =>
    if k0 = k then (k, v) :: rest else (k0, v0) :: setField rest k v

/-- Modelled from the spec: the Traversal Engine's `set(root, path, value)`
(spec section 4.2) — not present in src/.  Auto-vivifies missing intermediate
Mapping nodes; fails with a `TypeError`-kind error when an intermediate node
is a Scalar, a sequence segment is not an integer, or a sequence index is out
of range (sequences are never auto-extended). -/
def setPath : Value → List String → Value → Except Err Value
  | _, [], _ => .error .invalidPath
  | .dict fs, [s], v => .ok (.dict (setField fs s v))
  | .dict fs, s :: r :: rs, v =>
    (setPath ((lookupV fs s).getD (.dict [])) (r :: rs) v).map
      (fun c' => .dict (setField fs s c'))
  | .arr xs, [s], v =>
    match s.toNat? with
    | some i => if i < xs.length then .ok (.arr (xs.set i v)) else .error .typeMismatch
    | none => .error .typeMismatch
  | .arr xs, s :: r :: rs, v =>
    match s.toNat? with
    | some i =>
      match xs[i]? with
      | some c => (setPath c (r :: rs) v).map (fun c' => .arr (xs.set i c'))
      | none => .error .typeMismatch
    | none => .error .typeMismatch
  | .leaf _, _ :: _, _ => .error .typeMismatch

/-- Remove a key's first binding from a mapping's field list. -/
def removeField : List (String × Value) → String → List (String × Value)
  | [], _ => []
  | (k0, v0) :: rest, k => if k0 = k then rest else (k0, v0) :: removeField rest k

/-- Modelled from the spec: the Traversal Engine's `delete(root, path)`
(spec section 4.2) — not present in src/.  Returns the updated value and
whether something was removed; an absent step returns the value unchanged
with `false`, never an error. -/
def delPath : Value → List String → Value × Bool
  | v, [] => (v, false)
  | .dict fs, [s] =>
    if (lookupV fs s).isSome then (.dict (removeField fs s), true)
    else (.dict fs, false)
  | .dict fs, s :: r :: rs =>
    match lookupV fs s with
    | some c =>
      let p := delPath c (r :: rs)
      (.dict (setField fs s p.1), p.2)
    | none => (.dict fs, false)
  | .arr xs, [s] =>
    match s.toNat? with
    | some i =>
      if i < xs.length then (.arr (xs.eraseIdx i), true) else (.arr xs, false)
    | none => (.arr xs, false)
  | .arr xs, s :: r :: rs =>
    match s.toNat? with
    | some i =>
      match xs[i]? with
      | some c =>
        let p := delPath c (r :: rs)
        (.arr (xs.set i p.1), p.2)
      | none => (.arr xs, false)
    | none => (.arr xs, false)
  | .leaf sc, _ :: _ => (.leaf sc, false)

/-- The children of a node, keyed the way a concrete path names them:
mapping keys for a Mapping, decimal indices for a Sequence. -/
def childrenOf : Value → List (String × Value)
  | .leaf _ => []
  | .arr xs => xs.enum.map (fun ic => (toString ic.1, ic.2))
  | .dict fs => fs

/-- Modelled from the spec: the Pattern Matcher's `findPaths` search
(spec section 4.3) — not present in src/.  Recursive descent over the tree in
parallel with the pattern: a literal segment must match exactly, `*` consumes
exactly one concrete segment, and `**` backtracks — it tries the rest of the
pattern at the current position and also consumes one concrete segment
keeping `**` active.  `fuel` bounds recursion depth, an artifact of the
embedding. -/
def findPat : Nat → Value → List String → List String → List (List String)
  | 0, _, _, _ => []
  | _ + 1, _, [], pre => [pre]
  | fuel + 1, v, p :: ps, pre =>
    if p = "**" then
      findPat fuel v ps pre ++
        (childrenOf v).flatMap (fun kc => findPat fuel kc.2 (p :: ps) (pre ++ [kc.1]))
    else if p = "*" then
      (childrenOf v).flatMap (fun kc => findPat fuel kc.2 ps (pre ++ [kc.1]))
    else
      (childrenOf v).flatMap (fun kc =>
        if kc.1 = p then findPat fuel kc.2 ps (pre ++ [p]) else [])

namespace NitroDataStore

/-- Modelled from the spec: `NitroDataStore.get(path, default)` — not present
in src/.  Validates the path string, then resolves it; `ok none` is the
absent case (the Python method then returns the caller's default). -/
def get (d : Value) (p : String) : Except Err (Option Value) :=
  (parsePath p).map (getPath d)

/-- Modelled from the spec: `NitroDataStore.set(path, value)` — not present
in src/.  Validates the path string, then descends with auto-vivification
and returns the updated root. -/
def set (d : Value) (p : String) (v : Value) : Except Err Value :=
  (parsePath p).bind (fun segs => setPath d segs v)

/-- Modelled from the spec: `NitroDataStore.has(path)` — not present in
src/.  True iff the validated path resolves. -/
def has (d : Value) (p : String) : Except Err Bool :=
  (parsePath p).map (fun segs => (getPath d segs).isSome)

/-- Modelled from the spec: `NitroDataStore.delete(path)` — not present in
src/.  Returns the updated root and whether a binding was removed; a
non-existent path is a no-op returning `false`. -/
def delete (d : Value) (p : String) : Except Err (Value × Bool) :=
  (parsePath p).map (delPath d)

/-- Modelled from the spec: `NitroDataStore.find_paths(pattern)` — not
present in src/.  Validates the pattern string like any path, then runs the
backtracking matcher and joins each matched concrete path with dots.
`fuel` is an artifact of the embedding: any value at least the nesting depth
of the data plus the number of pattern segments reproduces the Python
behavior. -/
def find_paths (fuel : Nat) (d : Value) (pat : String) : Except Err (List String) :=
  (parsePath pat).map (fun segs =>
    (findPat fuel d segs []).map (String.intercalate "."))

end NitroDataStore

/-- Look up a key in a heap mapping's field list (first occurrence). -/
def lookupField (fs : List (String × Nat)) (k : String) : Option Nat :=
  (fs.find? (fun kc => kc.1 == k)).map (·.2)

/-- Modelled from the spec: `_deep_merge` on already-materialized trees
(spec section 4.5) — not present in src/.  A key present only in the overlay
is added; a key present in both whose values are both Mappings is merged
recursively; any other key present in both takes the overlay's value
wholesale (sequences are replaced, never concatenated).  Base keys keep the
base's order and overlay-only keys are appended in overlay order, as with a
Python dict updated in a loop.  `fuel` bounds recursion depth, an artifact of
the embedding. -/
def mergeValsF : Nat → Value → Value → Except Err Value
  | 0, _, _ => .error .fuelOut
  | fuel + 1, .dict fb, .dict fo =>
    (exSeq (fb.map (fun kc =>
      match lookupV fo kc.1 with
      | none => .ok kc
      | some ov => (mergeValsF fuel kc.2 ov).map (fun w => (kc.1, w))))).map
      (fun merged => .dict (merged ++ fo.filter (fun ko => (lookupV fb ko.1).isNone)))
  | _ + 1, .dict _, .leaf s => .ok (.leaf s)
  | _ + 1, .dict _, .arr xs => .ok (.arr xs)
  | _ + 1, .leaf _, o => .ok o
  | _ + 1, .arr _, o => .ok o

/-- Modelled from the spec: the CycleGuard-protected deep merge over the two
object graphs (spec section 4.5) — not present in src/.  Descends base and
overlay in lockstep on common Mapping keys, guarding each side's recursion
stack against revisiting a container; every value emitted into the result
goes through the guarded deep-copy path.  Where the two values are not both
Mappings the overlay's value replaces the base's wholesale. -/
def mergeHeap (hb ho : Heap) : Nat → List Nat → List Nat → Nat → Nat → Except Err Value
  | 0, _, _, _, _ => .error .fuelOut
  | fuel + 1, actB, actO, bid, oid =>
    match hb.objs[bid]?, ho.objs[oid]? with
    | some (.dict fb), some (.dict fo) =>
      if bid ∈ actB then .error .circular
      else if oid ∈ actO then .error .circular
      else
        (exSeq ((fb.map (fun kc =>
            match lookupField fo kc.1 with
            | none => (deepCopy hb fuel (bid :: actB) kc.2).map (fun w => (kc.1, w))
            | some ocid =>
              (mergeHeap hb ho fuel (bid :: actB) (oid :: actO) kc.2 ocid).map
                (fun w => (kc.1, w)))) ++
          (fo.filter (fun ko => (lookupField fb ko.1).isNone)).map (fun ko =>
            (deepCopy ho fuel (oid :: actO) ko.2).map (fun w => (ko.1, w))))).map
          Value.dict
    | some _, some _ => deepCopy ho (fuel + 1) actO oid
    | _, _ => .error .dangling

/-- The state of a `NitroDataStore` instance: its `_data` object graph and
the id of the root object. -/
structure Store : Type where
  heap : Heap
  root : Nat
deriving DecidableEq, Repr

/-- Materialize a tree as a fresh object graph (children first, root last). -/
def buildHeap : Nat → Value → List Obj → Option (Nat × List Obj)
  | 0, _, _ => none
  | _ + 1, .leaf s, acc => some (acc.length, acc ++ [.leaf s])
  | fuel + 1, .arr xs, acc =>
    match xs.foldl (fun st c =>
        match st with
        | none => none
        | some (ids, a) =>
          match buildHeap fuel c a with
          | some (i, a') => some (ids ++ [i], a')
          | none => none) (some ([], acc)) with
    | some (ids, a) => some (a.length, a ++ [.arr ids])
    | none => none
  | fuel + 1, .dict fs, acc =>
    match fs.foldl (fun st kc =>
        match st with
        | none => none
        | some (flds, a) =>
          match buildHeap fuel kc.2 a with
          | some (i, a') => some (flds ++ [(kc.1, i)], a')
          | none => none) (some ([], acc)) with
    | some (flds, a) => some (a.length, a ++ [.dict flds])
    | none => none

/-- A store holding a fresh object graph built from a tree. -/
def Store.ofValue (fuel : Nat) (v : Value) : Store :=
  match buildHeap fuel v [] with
  | some (r, objs) => ⟨⟨objs⟩, r⟩
  | none => ⟨⟨[]⟩, 0⟩

namespace NitroDataStore

/-- Modelled from the spec: `NitroDataStore.to_dict()` — not present in
src/.  Exports the store's object graph as an independent deep copy through
the CycleGuard-protected copy path. -/
def to_dict (h : Heap) (r : Nat) : Except Err Value :=
  deepCopy h (h.objs.length + 1) [] r

/-- Modelled from the spec: the `NitroDataStore(data)` constructor — not
present in src/.  Deep-copies the input structure (CycleGuard protected) and
stores the result as the new store's data. -/
def init (h : Heap) (r : Nat) : Except Err Store :=
  (to_dict h r).map (fun v => Store.ofValue (h.objs.length + 1) v)

/-- Modelled from the spec: `NitroDataStore.merge(overlay)` — not present in
src/.  Runs the CycleGuard-protected deep merge of the store's data with the
overlay graph; on success the merged result becomes the store's data, on
failure the exception propagates and the store keeps its previous data
(spec section 7: the store's prior state must remain unchanged).  Returns
the state of the store after the call together with the call's outcome. -/
def merge (s : Store) (ho : Heap) (oid : Nat) : Store × Except Err Unit :=
  match mergeHeap s.heap ho (s.heap.objs.length + ho.objs.length + 2) [] [] s.root oid with
  | .ok v => (Store.ofValue (s.heap.objs.length + ho.objs.length + 2) v, .ok ())
  | .error e => (s, .error e)

/-- One step of directory loading: merge the next file when it decoded,
keep the accumulator otherwise (the skip), and propagate earlier errors. -/
def mergeStep (fuel : Nat) (acc : Except Err Value) (f : String × Option Value) :
    Except Err Value :=
  match f.2 with
  | none => acc
  | some v =>
    match acc with
    | .ok a => mergeValsF fuel a v
    | .error e => .error e

/-- Modelled from the spec + src/examples/02_file_operations.py:
`NitroDataStore.from_directory` — not present in src/.  Receives the matched
files in filename order, each either decoded (`some tree`) or failing to
decode (`none`), and deep-merges the decoded documents in order.  Per the
demonstrated behavior in examples/02, a file whose contents fail to decode
is silently skipped, not raised.  `fuel` bounds merge recursion depth, an
artifact of the embedding. -/
def from_directory (fuel : Nat) (files : List (String × Option Value)) :
    Except Err Value :=
  files.foldl (mergeStep fuel) (.ok (.dict []))

end NitroDataStore

/-- Apply `f` to every leaf together with its dotted path string. -/
def taux (f : String → Value → Value) : Nat → List String → Value → Value
  | 0, _, v => v
  | fuel + 1, pre, .dict fs =>
    .dict (fs.map (fun kc => (kc.1, taux f fuel (pre ++ [kc.1]) kc.2)))
  | fuel + 1, pre, .arr xs =>
    .arr (xs.enum.map (fun ic => taux f fuel (pre ++ [toString ic.1]) ic.2))
  | _ + 1, pre, .leaf s => f (String.intercalate "." pre) (.leaf s)

/-- Apply `g` to every mapping key, recursively. -/
def tkeys (g : String → String) : Nat → Value → Value
  | 0, v => v
  | fuel + 1, .dict fs => .dict (fs.map (fun kc => (g kc.1, tkeys g fuel kc.2)))
  | fuel + 1, .arr xs => .arr (xs.map (tkeys g fuel))
  | _ + 1, .leaf s => .leaf s

namespace NitroDataStore

/-- Modelled from the spec + src/examples/06_data_introspection.py:
`NitroDataStore.transform_all(func)` — not present in src/.  Per the
demonstrated behavior in examples/06 ("Original unchanged"), the method
builds a transformed copy and returns it as a new store, leaving the calling
store's data untouched.  The result is (data of the calling store after the
call, data of the returned store).  `fuel` bounds recursion depth, an
artifact of the embedding. -/
def transform_all (fuel : Nat) (d : Value) (f : String → Value → Value) :
    Value × Value :=
  (d, taux f fuel [] d)

/-- Modelled from the spec + src/examples/06_data_introspection.py:
`NitroDataStore.transform_keys(func)` — not present in src/.  Like
`transform_all`, returns a new store's data built by renaming every mapping
key, leaving the calling store's data untouched. -/
def transform_keys (fuel : Nat) (d : Value) (g : String → String) :
    Value × Value :=
  (d, tkeys g fuel d)

end NitroDataStore

/-- The record-query builder's state: the resolved in-memory sequence
(spec section 4.6). -/
structure Query : Type where
  items : List Value

/-- Modelled from the spec: `Query.where(predicate)` — not present in src/.
Filters the sequence; chained calls are a logical AND. -/
def Query.filterWhere (q : Query) (p : Value → Bool) : Query :=
  ⟨q.items.filter p⟩

/-- Modelled from the spec + src/examples/03_querying.py: `Query.first()` —
not present in src/.  The first remaining element, or `None` when no element
remains. -/
def Query.first (q : Query) : Option Value :=
  q.items.head?

/-- Modelled from the spec: `NitroDataStore.query(path)` — not present in
src/.  Resolves the path via `get` and fails unless the resolved value is a
Sequence. -/
def NitroDataStore.query (d : Value) (p : String) : Except Err Query :=
  (NitroDataStore.get d p).bind (fun ov =>
    match ov with
    | some (.arr xs) => .ok ⟨xs⟩
    | _ => .error .notASequence)

/-- The Python exception classes relevant to the public interface. -/
inductive ExcClass : Type
  | exceptionC
  | valueError
  | typeError
  | keyError
  | invalidPathError
  | circularReferenceError
deriving DecidableEq, Repr

/-- Modelled from the spec + src/examples/09_security_features.py: the
class hierarchy of the library's exceptions — not present in src/.  In the
examples both the malformed-path failure and the circular-reference failure
are caught by `except ValueError`, so `InvalidPathError` and
`CircularReferenceError` subclass `ValueError`; `TypeError`-kind failures do
not. -/
def ancestors : ExcClass → List ExcClass
  | .exceptionC => [.exceptionC]
  | .valueError => [.valueError, .exceptionC]
  | .typeError => [.typeError, .exceptionC]
  | .keyError => [.keyError, .exceptionC]
  | .invalidPathError => [.invalidPathError, .valueError, .exceptionC]
  | .circularReferenceError => [.circularReferenceError, .valueError, .exceptionC]

/-- `except handler` catches an exception of class `c` iff `handler` is `c`
or one of its ancestors. -/
def catches (handler c : ExcClass) : Bool :=
  (ancestors c).contains handler

/-- The Python exception class raised for each modelled error. -/
def classOf : Err → ExcClass
  | .invalidPath => .invalidPathError
  | .circular => .circularReferenceError
  | .typeMismatch => .typeError
  | .notASequence => .typeError
  | .jsonDecode => .valueError
  | .fuelOut => .exceptionC
  | .dangling => .exceptionC

/-- The malformed-path shapes of the claim: empty, whitespace-only, a lone
dot, a leading dot, a trailing dot, or two consecutive dots. -/
def MalformedPath (s : String) : Prop :=
  s.data = [] ∨ (∀ c ∈ s.data, c.isWhitespace = true) ∨ s.data = ['.'] ∨
  (∃ r, s.data = '.' :: r) ∨ (∃ l, s.data = l ++ ['.']) ∨
  ∃ l r, s.data = l ++ '.' :: '.' :: r

/-- Concrete data shared by the witnesses: the cyclic dict of examples/09
(`{'a': 1, 'self': <itself>}`), a diamond-shaped DAG, the store with an
internal cycle merged in examples/09, and the tree of the `**.name`
scenario. -/
def hCyc : Heap := ⟨[.dict [("a", 1), ("self", 0)], .leaf (.intV 1)]⟩

def hDag : Heap := ⟨[.dict [("x", 1), ("y", 1)], .dict [("v", 2)], .leaf .null]⟩

def storeEx : Store := ⟨⟨[.dict [("config", 1)], .dict [("self", 1)]]⟩, 0⟩

def overlayEx : Heap :=
  ⟨[.dict [("config", 1)], .dict [("self", 2)], .dict [("new", 3)],
    .leaf (.str "value")]⟩

def dataEx8 : Value :=
  .dict [("a", .dict [("name", .leaf (.str "x"))]),
    ("b", .dict [("c", .dict [("name", .leaf (.str "y"))])])]

def exC4 : Value := .dict [("name", .leaf (.str "x"))]

def fC4 : String → Value → Value := fun _ _ => .leaf (.str "y")

def dirC5 : List (String × Option Value) :=
  [("invalid.json", none),
   ("valid.json", some (.dict [("valid", .leaf (.boolV true))]))]

theorem exSeq_nil {α : Type} : exSeq ([] : List (Except Err α)) = .ok [] := rfl

theorem okMap {α β : Type} (a : α) (f : α → β) :
    (Except.ok a : Except Err α).map f = .ok (f a) := rfl

theorem errMap {α β : Type} (e : Err) (f : α → β) :
    (Except.error e : Except Err α).map f = .error e := rfl

theorem exSeq_cons_ok {α : Type} (v : α) (rest : List (Except Err α)) :
    exSeq (.ok v :: rest) = (exSeq rest).map (v :: ·) := rfl

theorem exSeq_cons_error {α : Type} (e : Err) (rest : List (Except Err α)) :
    exSeq ((.error e : Except Err α) :: rest) = .error e := rfl

theorem Reaches.snoc {h : Heap} {a b c : Nat}
    (hab : Reaches h a b) (hbc : h.Edge b c) : Reaches h a c := by
  induction hab with
  | refl => exact .head hbc (.refl _)
  | head e _ ih => exact .head e (ih hbc)

theorem Heap.Edge.isCont {h : Heap} {a b : Nat} (e : h.Edge a b) : h.IsCont a := by
  obtain ⟨o, ho, hb⟩ := e
  refine ⟨o, ho, ?_⟩
  cases o with
  | leaf s => simp [Obj.childIds] at hb
  | arr xs => rfl
  | dict fs => rfl

theorem exMap_ok {α β : Type} {x : Except Err α} {f : α → β} {b : β}
    (hx : x.map f = .ok b) : ∃ a, x = .ok a ∧ f a = b := by
  cases x with
  | ok a => exact ⟨a, rfl, by simpa [Except.map] using hx⟩
  | error e => simp [Except.map] at hx

theorem exMap_error {α β : Type} {x : Except Err α} {f : α → β} {e : Err} :
    x.map f = .error e ↔ x = .error e := by
  cases x <;> simp [Except.map]

theorem exSeq_ok_mem {α : Type} {l : List (Except Err α)} {vs : List α}
    (hl : exSeq l = .ok vs) : ∀ x ∈ l, ∃ v, x = .ok v := by
  induction l generalizing vs with
  | nil => intro x hx; cases hx
  | cons y rest ih =>
    intro x hx
    cases y with
    | ok v =>
      rw [exSeq] at hl
      obtain ⟨ws, hws, -⟩ := exMap_ok hl
      rcases List.mem_cons.mp hx with rfl | hx
      · exact ⟨v, rfl⟩
      · exact ih hws x hx
    | error e => rw [exSeq] at hl; cases hl

theorem exSeq_error_mem {α : Type} {l : List (Except Err α)} {e : Err}
    (hl : exSeq l = .error e) : .error e ∈ l := by
  induction l with
  | nil => rw [exSeq] at hl; cases hl
  | cons y rest ih =>
    cases y with
    | ok v =>
      rw [exSeq] at hl
      rw [exMap_error] at hl
      exact List.mem_cons_of_mem _ (ih hl)
    | error e' =>
      rw [exSeq] at hl
      cases hl
      exact List.mem_cons_self _ _

theorem okOrCirc_map {α β : Type} {x : Except Err α} (f : α → β)
    (hx : OkOrCirc x) : OkOrCirc (x.map f) := by
  cases x with
  | ok a => trivial
  | error e => exact hx

theorem exSeq_okOrCirc {α : Type} {l : List (Except Err α)}
    (hl : ∀ x ∈ l, OkOrCirc x) : OkOrCirc (exSeq l) := by
  induction l with
  | nil => trivial
  | cons y rest ih =>
    cases y with
    | ok v =>
      rw [exSeq]
      exact okOrCirc_map _ (ih fun x hx => hl x (List.mem_cons_of_mem _ hx))
    | error e => exact hl _ (List.mem_cons_self _ _)

/-- From a successful guarded copy of a container `i`, every direct child `b`
was itself copied successfully with `i` pushed on the active stack. -/
theorem copyOk_child {h : Heap} {fuel : Nat} {act : List Nat} {i b : Nat} {v : Value}
    (hok : deepCopy h (fuel + 1) act i = .ok v) (he : h.Edge i b) :
    i ∉ act ∧ ∃ w, deepCopy h fuel (i :: act) b = .ok w := by
  obtain ⟨o, ho, hb⟩ := he
  rw [deepCopy, ho] at hok
  cases o with
  | leaf s => simp [Obj.childIds] at hb
  | arr xs =>
    simp only [Obj.childIds] at hb
    by_cases hmem : i ∈ act
    · simp [hmem] at hok
    · refine ⟨hmem, ?_⟩
      simp only [if_neg hmem] at hok
      obtain ⟨ws, hws, -⟩ := exMap_ok hok
      exact exSeq_ok_mem hws _ (List.mem_map_of_mem _ hb)
  | dict fs =>
    simp only [Obj.childIds] at hb
    obtain ⟨kc, hkc, hkcb⟩ := List.mem_map.mp hb
    by_cases hmem : i ∈ act
    · simp [hmem] at hok
    · refine ⟨hmem, ?_⟩
      simp only [if_neg hmem] at hok
      obtain ⟨ws, hws, -⟩ := exMap_ok hok
      obtain ⟨y, hy⟩ := exSeq_ok_mem hws _ (List.mem_map_of_mem _ hkc)
      obtain ⟨w, hw, -⟩ := exMap_ok hy
      exact ⟨w, hkcb ▸ hw⟩

/-- A successful guarded copy of `i` means no container reachable from `i`
was on the active stack when the copy of `i` started. -/
theorem copyOk_not_active {h : Heap} {i n : Nat} (hr : Reaches h i n) :
    ∀ fuel act v, deepCopy h fuel act i = .ok v → h.IsCont n → n ∉ act := by
  induction hr with
  | refl a =>
    intro fuel act v hok hcont hmem
    obtain ⟨o, ho, hoc⟩ := hcont
    cases fuel with
    | zero => rw [deepCopy] at hok; cases hok
    | succ fuel =>
      rw [deepCopy, ho] at hok
      cases o with
      | leaf s => cases hoc
      | arr xs => simp [hmem] at hok
      | dict fs => simp [hmem] at hok
  | head e hbc ih =>
    intro fuel act v hok hcont hmem
    cases fuel with
    | zero => rw [deepCopy] at hok; cases hok
    | succ fuel =>
      obtain ⟨-, w, hw⟩ := copyOk_child hok e
      exact ih fuel _ w hw hcont (List.mem_cons_of_mem _ hmem)

/-- A successful guarded copy of `i` yields a successful guarded copy of every
node reachable from `i`. -/
theorem copyOk_descend {h : Heap} {i n : Nat} (hr : Reaches h i n) :
    ∀ fuel act v, deepCopy h fuel act i = .ok v →
      ∃ f' a' v', deepCopy h f' a' n = .ok v' := by
  induction hr with
  | refl a => intro fuel act v hok; exact ⟨fuel, act, v, hok⟩
  | head e hbc ih =>
    intro fuel act v hok
    cases fuel with
    | zero => rw [deepCopy] at hok; cases hok
    | succ fuel =>
      obtain ⟨-, w, hw⟩ := copyOk_child hok e
      exact ih fuel _ w hw

/-- Completeness of the CycleGuard: a structure with a reachable circular
reference is never copied successfully, whatever the fuel. -/
theorem cyc_not_ok {h : Heap} {r : Nat} (hcyc : HasCycleFrom h r) :
    ∀ fuel act v, deepCopy h fuel act r ≠ .ok v := by
  obtain ⟨n, m, hrn, hnm, hmn⟩ := hcyc
  intro fuel act v hok
  obtain ⟨f', a', v', hok'⟩ := copyOk_descend hrn fuel act v hok
  cases f' with
  | zero => rw [deepCopy] at hok'; cases hok'
  | succ f'' =>
    obtain ⟨-, w, hw⟩ := copyOk_child hok' hnm
    exact copyOk_not_active hmn f'' (n :: a') w hw hnm.isCont (List.mem_cons_self _ _)

/-- With enough fuel, on a well-formed heap the guarded copy either succeeds
or fails precisely with the circular-reference error. -/
theorem copyTerm {h : Heap} (hwf : h.Wf) :
    ∀ fuel act id, act.Nodup → (∀ a ∈ act, a < h.objs.length) →
      id < h.objs.length → h.objs.length + 1 ≤ fuel + act.length →
      OkOrCirc (deepCopy h fuel act id) := by
  intro fuel
  induction fuel with
  | zero =>
    intro act id hnd hbnd hid hle
    exfalso
    have hcard : act.length ≤ h.objs.length := by
      have h1 : act.toFinset.card = act.length := List.toFinset_card_of_nodup hnd
      have h2 : act.toFinset ⊆ Finset.range h.objs.length := by
        intro a ha
        simp only [List.mem_toFinset] at ha
        simpa using hbnd a ha
      have := Finset.card_le_card h2
      simpa [h1] using this
    omega
  | succ fuel ih =>
    intro act id hnd hbnd hid hle
    have hido : h.objs[id]? = some h.objs[id] := List.getElem?_eq_getElem hid
    have homem : h.objs[id] ∈ h.objs := List.getElem_mem hid
    rw [deepCopy, hido]
    cases hobj : h.objs[id] with
    | leaf s => trivial
    | arr xs =>
      by_cases hmem : id ∈ act
      · simp [hmem, OkOrCirc]
      · simp only [if_neg hmem]
        refine okOrCirc_map _ (exSeq_okOrCirc ?_)
        intro x hx
        obtain ⟨c, hc, rfl⟩ := List.mem_map.mp hx
        refine ih (id :: act) c (hnd.cons hmem) ?_ ?_ ?_
        · intro a ha
          rcases List.mem_cons.mp ha with rfl | ha
          · exact hid
          · exact hbnd a ha
        · exact hwf _ homem c (by rw [hobj]; exact hc)
        · simp only [List.length_cons]; omega
    | dict fs =>
      by_cases hmem : id ∈ act
      · simp [hmem, OkOrCirc]
      · simp only [if_neg hmem]
        refine okOrCirc_map _ (exSeq_okOrCirc ?_)
        intro x hx
        obtain ⟨kc, hkc, rfl⟩ := List.mem_map.mp hx
        refine okOrCirc_map _ ?_
        refine ih (id :: act) kc.2 (hnd.cons hmem) ?_ ?_ ?_
        · intro a ha
          rcases List.mem_cons.mp ha with rfl | ha
          · exact hid
          · exact hbnd a ha
        · refine hwf _ homem kc.2 ?_
          rw [hobj]
          exact List.mem_map_of_mem _ hkc
        · simp only [List.length_cons]; omega

/-- Soundness of the CycleGuard: on data with no reachable circular reference
the guarded copy never reports one (a DAG is not falsely rejected). -/
theorem copySound {h : Heap} {r : Nat} (hnc : ¬ HasCycleFrom h r) :
    ∀ fuel act id, Reaches h r id → (∀ a ∈ act, Reaches h r a ∧ TPlus h a id) →
      deepCopy h fuel act id ≠ .error .circular := by
  intro fuel
  induction fuel with
  | zero => intro act id _ _ hcontra; rw [deepCopy] at hcontra; cases hcontra
  | succ fuel ih =>
    intro act id hrid hinv hcontra
    rw [deepCopy] at hcontra
    cases hoid : h.objs[id]? with
    | none => rw [hoid] at hcontra; cases hcontra
    | some o =>
      rw [hoid] at hcontra
      cases o with
      | leaf s => cases hcontra
      | arr xs =>
        by_cases hmem : id ∈ act
        · obtain ⟨-, c, hec, hrc⟩ := hinv id hmem
          exact hnc ⟨id, c, hrid, hec, hrc⟩
        · simp only [if_neg hmem] at hcontra
          rw [exMap_error] at hcontra
          have := exSeq_error_mem hcontra
          obtain ⟨c, hc, hceq⟩ := List.mem_map.mp this
          have hedge : h.Edge id c := ⟨.arr xs, hoid, hc⟩
          refine ih (id :: act) c (hrid.snoc hedge) ?_ hceq
          intro a ha
          rcases List.mem_cons.mp ha with rfl | ha
          · exact ⟨hrid, c, hedge, .refl c⟩
          · obtain ⟨hra, b, heab, hrb⟩ := hinv a ha
            exact ⟨hra, b, heab, hrb.snoc hedge⟩
      | dict fs =>
        by_cases hmem : id ∈ act
        · obtain ⟨-, c, hec, hrc⟩ := hinv id hmem
          exact hnc ⟨id, c, hrid, hec, hrc⟩
        · simp only [if_neg hmem] at hcontra
          rw [exMap_error] at hcontra
          have := exSeq_error_mem hcontra
          obtain ⟨kc, hkc, hkceq⟩ := List.mem_map.mp this
          rw [exMap_error] at hkceq
          have hedge : h.Edge id kc.2 :=
            ⟨.dict fs, hoid, List.mem_map_of_mem _ hkc⟩
          refine ih (id :: act) kc.2 (hrid.snoc hedge) ?_ hkceq
          intro a ha
          rcases List.mem_cons.mp ha with rfl | ha
          · exact ⟨hrid, kc.2, hedge, .refl kc.2⟩
          · obtain ⟨hra, b, heab, hrb⟩ := hinv a ha
            exact ⟨hra, b, heab, hrb.snoc hedge⟩

theorem splitDots_ne_nil (cs : List Char) : splitDots cs ≠ [] := by
  induction cs with
  | nil => simp [splitDots]
  | cons c rest ih =>
    rw [splitDots]
    by_cases hc : c = '.'
    · simp [hc]
    · simp only [if_neg hc]
      cases hrest : splitDots rest with
      | nil => simp
      | cons s ss => simp

theorem splitDots_append (l r : List Char) :
    splitDots (l ++ '.' :: r) = splitDots l ++ splitDots r := by
  induction l with
  | nil => simp [splitDots]
  | cons c l ih =>
    by_cases hc : c = '.'
    · subst hc
      simp [splitDots, ih]
    · simp only [List.cons_append, splitDots, if_neg hc, ih]
      cases hl : splitDots l with
      | nil => exact absurd hl (splitDots_ne_nil l)
      | cons s ss => simp [ih, hl]

theorem parsePath_error_eq {s : String} {e : Err}
    (hs : parsePath s = .error e) : e = .invalidPath := by
  unfold parsePath at hs
  split at hs
  · cases hs; rfl
  · simp only [] at hs
    split at hs
    · cases hs; rfl
    · cases hs

theorem parsePath_error_of_empty_seg {s : String}
    (hmem : [] ∈ splitDots s.data) : parsePath s = .error .invalidPath := by
  unfold parsePath
  split
  · rfl
  · simp only []
    have hany : (splitDots s.data).any (·.isEmpty) = true := by
      exact List.any_eq_true.mpr ⟨[], hmem, rfl⟩
    rw [if_pos hany]

theorem parsePath_ok_ne_nil {s : String} {segs : List String}
    (hs : parsePath s = .ok segs) : segs ≠ [] := by
  unfold parsePath at hs
  split at hs
  · cases hs
  · simp only [] at hs
    split at hs
    · cases hs
    · cases hs
      simp only [ne_eq, List.map_eq_nil_iff]
      exact splitDots_ne_nil s.data

theorem lookupV_setField_self (fs : List (String × Value)) (k : String) (v : Value) :
    lookupV (setField fs k v) k = some v := by
  induction fs with
  | nil => simp [setField, lookupV]
  | cons kv rest ih =>
    obtain ⟨k0, v0⟩ := kv
    by_cases hk : k0 = k
    · simp [setField, hk, lookupV]
    · rw [setField, if_neg hk, lookupV,
        List.find?_cons_of_neg _ (by simpa using hk)]
      exact ih

/-- Core of the set/get round trip: a successful `set` stores the value where
`get` finds it, auto-vivified intermediates included. -/
theorem setPath_getPath :
    ∀ (segs : List String) (root : Value) (v r' : Value),
      setPath root segs v = .ok r' → getPath r' segs = some v := by
  intro segs
  induction segs with
  | nil => intro root v r' hset; rw [setPath] at hset; cases hset
  | cons s rest ih =>
    intro root v r' hset
    cases rest with
    | nil =>
      cases root with
      | leaf sc => rw [setPath] at hset; cases hset
      | dict fs =>
        rw [setPath] at hset
        cases hset
        simp [getPath, lookupV_setField_self]
      | arr xs =>
        rw [setPath] at hset
        cases hn : s.toNat? with
        | none => simp only [hn] at hset; cases hset
        | some i =>
          simp only [hn] at hset
          by_cases hi : i < xs.length
          · rw [if_pos hi] at hset
            cases hset
            simp [getPath, hn, List.getElem?_set_eq_of_lt _ hi]
          · rw [if_neg hi] at hset; cases hset
    | cons r rs =>
      cases root with
      | leaf sc => rw [setPath] at hset; cases hset
      | dict fs =>
        rw [setPath] at hset
        obtain ⟨c', hc', rfl⟩ := exMap_ok hset
        simp only [getPath, lookupV_setField_self]
        exact ih _ v c' hc'
      | arr xs =>
        rw [setPath] at hset
        cases hn : s.toNat? with
        | none => simp only [hn] at hset; cases hset
        | some i =>
          simp only [hn] at hset
          cases hx : xs[i]? with
          | none => simp only [hx] at hset; cases hset
          | some c =>
            simp only [hx] at hset
            obtain ⟨c', hc', rfl⟩ := exMap_ok hset
            have hi : i < xs.length := by
              by_contra hge
              rw [List.getElem?_eq_none (by omega)] at hx
              cases hx
            simp only [getPath, hn, List.getElem?_set_eq_of_lt _ hi]
            exact ih _ v c' hc'

theorem lookupV_cons_self (k : String) (v : Value) (l : List (String × Value)) :
    lookupV ((k, v) :: l) k = some v := by
  simp [lookupV, List.find?]

theorem lookupV_cons_ne {k0 k : String} (hk : k0 ≠ k) (v : Value)
    (l : List (String × Value)) : lookupV ((k0, v) :: l) k = lookupV l k := by
  have hb : (k0 == k) = false := beq_eq_false_iff_ne.mpr hk
  simp [lookupV, List.find?, hb]

theorem lookupV_append_left {l1 : List (String × Value)} {k : String} {v : Value}
    (hl : lookupV l1 k = some v) (l2 : List (String × Value)) :
    lookupV (l1 ++ l2) k = some v := by
  induction l1 with
  | nil => simp [lookupV] at hl
  | cons kv rest ih =>
    obtain ⟨k0, v0⟩ := kv
    by_cases hk : k0 = k
    · subst hk
      rw [lookupV_cons_self] at hl
      rw [List.cons_append, lookupV_cons_self]
      exact hl
    · rw [lookupV_cons_ne hk] at hl
      rw [List.cons_append, lookupV_cons_ne hk]
      exact ih hl

theorem lookupV_append_right {l1 : List (String × Value)} {k : String}
    (hl : lookupV l1 k = none) (l2 : List (String × Value)) :
    lookupV (l1 ++ l2) k = lookupV l2 k := by
  induction l1 with
  | nil => simp
  | cons kv rest ih =>
    obtain ⟨k0, v0⟩ := kv
    by_cases hk : k0 = k
    · subst hk
      rw [lookupV_cons_self] at hl
      cases hl
    · rw [lookupV_cons_ne hk] at hl
      rw [List.cons_append, lookupV_cons_ne hk]
      exact ih hl

theorem lookupV_filter_isNone {fb : List (String × Value)} {k : String}
    (hk : lookupV fb k = none) (fo : List (String × Value)) :
    lookupV (fo.filter (fun ko => (lookupV fb ko.1).isNone)) k = lookupV fo k := by
  induction fo with
  | nil => simp
  | cons kv rest ih =>
    obtain ⟨k0, v0⟩ := kv
    rw [List.filter_cons]
    by_cases hkk : k0 = k
    · subst hkk
      have hkeep : (lookupV fb (k0, v0).1).isNone = true := by
        simp only [hk]
        rfl
      rw [if_pos hkeep, lookupV_cons_self, lookupV_cons_self]
    · by_cases hkeep : (lookupV fb (k0, v0).1).isNone = true
      · rw [if_pos hkeep, lookupV_cons_ne hkk, lookupV_cons_ne hkk]
        exact ih
      · rw [if_neg hkeep, lookupV_cons_ne hkk]
        exact ih

/-- A merge at any fuel either acts on two Mappings or returns the overlay
value wholesale. -/
theorem mergeValsF_not_dicts {fuel : Nat} {vb vo w : Value}
    (hm : mergeValsF fuel vb vo = .ok w) :
    (∃ gb go, vb = .dict gb ∧ vo = .dict go) ∨ w = vo := by
  cases fuel with
  | zero => rw [mergeValsF] at hm; cases hm
  | succ fuel =>
    cases vb with
    | dict gb =>
      cases vo with
      | dict go => exact Or.inl ⟨gb, go, rfl, rfl⟩
      | leaf s =>
        have h2 : (Except.ok (Value.leaf s) : Except Err Value) = .ok w := hm
        cases h2
        exact Or.inr rfl
      | arr xs =>
        have h2 : (Except.ok (Value.arr xs) : Except Err Value) = .ok w := hm
        cases h2
        exact Or.inr rfl
    | leaf s =>
      have h2 : (Except.ok vo : Except Err Value) = .ok w := hm
      cases h2
      exact Or.inr rfl
    | arr xs =>
      have h2 : (Except.ok vo : Except Err Value) = .ok w := hm
      cases h2
      exact Or.inr rfl

/-- Per-key behavior of the base-side pass of the tree merge. -/
theorem merge_fields_lookup (fuel : Nat) (fo : List (String × Value)) :
    ∀ (fb merged : List (String × Value)),
      exSeq (fb.map (fun kc =>
        match lookupV fo kc.1 with
        | none => .ok kc
        | some ov => (mergeValsF fuel kc.2 ov).map (fun w => (kc.1, w)))) = .ok merged →
      ∀ k : String,
        (lookupV fb k = none → lookupV merged k = none) ∧
        (∀ vb, lookupV fb k = some vb →
          match lookupV fo k with
          | none => lookupV merged k = some vb
          | some ov => ∃ w, mergeValsF fuel vb ov = .ok w ∧ lookupV merged k = some w) := by
  intro fb
  induction fb with
  | nil =>
    intro merged hm k
    have h2 : (Except.ok [] : Except Err (List (String × Value))) = .ok merged := hm
    cases h2
    exact ⟨fun _ => rfl, fun vb hvb => by simp [lookupV] at hvb⟩
  | cons kc fb ih =>
    intro merged hm k
    obtain ⟨k0, v0⟩ := kc
    rw [List.map_cons] at hm
    cases hfo : lookupV fo k0 with
    | none =>
      simp only [hfo] at hm
      rw [exSeq_cons_ok] at hm
      obtain ⟨merged', hm', rfl⟩ := exMap_ok hm
      by_cases hk : k0 = k
      · subst hk
        refine ⟨fun hnone => ?_, fun vb hvb => ?_⟩
        · rw [lookupV, List.find?_cons_of_pos _ (by simp)] at hnone
          cases hnone
        · rw [lookupV, List.find?_cons_of_pos _ (by simp)] at hvb
          cases hvb
          rw [hfo, lookupV, List.find?_cons_of_pos _ (by simp)]
          rfl
      · have hskip : ∀ (v' : Value) (l : List (String × Value)),
            lookupV ((k0, v') :: l) k = lookupV l k := by
          intro v' l
          rw [lookupV, List.find?_cons_of_neg _ (by simpa using hk)]
          rfl
        refine ⟨fun hnone => ?_, fun vb hvb => ?_⟩
        · rw [hskip] at hnone
          rw [hskip]
          exact ((ih merged' hm' k).1) hnone
        · rw [hskip] at hvb
          rw [hskip]
          exact ((ih merged' hm' k).2) vb hvb
    | some ov =>
      simp only [hfo] at hm
      cases hmv : mergeValsF fuel v0 ov with
      | error e =>
        rw [hmv, errMap, exSeq_cons_error] at hm
        cases hm
      | ok w0 =>
        rw [hmv, okMap, exSeq_cons_ok] at hm
        obtain ⟨merged', hm', rfl⟩ := exMap_ok hm
        by_cases hk : k0 = k
        · subst hk
          refine ⟨fun hnone => ?_, fun vb hvb => ?_⟩
          · rw [lookupV, List.find?_cons_of_pos _ (by simp)] at hnone
            cases hnone
          · rw [lookupV, List.find?_cons_of_pos _ (by simp)] at hvb
            cases hvb
            rw [hfo]
            exact ⟨w0, hmv, lookupV_cons_self _ _ _⟩
        · have hskip : ∀ (v' : Value) (l : List (String × Value)),
              lookupV ((k0, v') :: l) k = lookupV l k := by
            intro v' l
            rw [lookupV, List.find?_cons_of_neg _ (by simpa using hk)]
            rfl
          refine ⟨fun hnone => ?_, fun vb hvb => ?_⟩
          · rw [hskip] at hnone
            rw [hskip]
            exact ((ih merged' hm' k).1) hnone
          · rw [hskip] at hvb
            rw [hskip]
            exact ((ih merged' hm' k).2) vb hvb

/-- The tree merge can only fail by running out of fuel, an artifact of the
embedding: no real error of the engine arises from merging trees. -/
theorem mergeValsF_error_fuelOut :
    ∀ (fuel : Nat) (a b : Value) (e : Err),
      mergeValsF fuel a b = .error e → e = .fuelOut := by
  intro fuel
  induction fuel with
  | zero =>
    intro a b e hm
    have h2 : (Except.error Err.fuelOut : Except Err Value) = .error e := hm
    cases h2
    rfl
  | succ fuel ih =>
    intro a b e hm
    cases a with
    | leaf s => cases hm
    | arr xs => cases hm
    | dict fb =>
      cases b with
      | leaf s => cases hm
      | arr xs => cases hm
      | dict fo =>
        rw [mergeValsF, exMap_error] at hm
        have hmem := exSeq_error_mem hm
        obtain ⟨kc, hkc, hkceq⟩ := List.mem_map.mp hmem
        cases hfo : lookupV fo kc.1 with
        | none => simp only [hfo] at hkceq; cases hkceq
        | some ov =>
          simp only [hfo] at hkceq
          rw [exMap_error] at hkceq
          exact ih kc.2 ov e hkceq

theorem foldl_mergeStep_filter (fuel : Nat) :
    ∀ (files : List (String × Option Value)) (acc : Except Err Value),
      files.foldl (NitroDataStore.mergeStep fuel) acc =
        (files.filter (fun f => f.2.isSome)).foldl (NitroDataStore.mergeStep fuel) acc := by
  intro files
  induction files with
  | nil => intro acc; rfl
  | cons f files ih =>
    intro acc
    rw [List.foldl_cons, List.filter_cons]
    cases hf2 : f.2 with
    | none =>
      have hstep : NitroDataStore.mergeStep fuel acc f = acc := by
        simp only [NitroDataStore.mergeStep, hf2]
      rw [hstep, if_neg (by simp [hf2]), ih]
    | some v =>
      rw [if_pos (by simp [hf2]), List.foldl_cons, ih]

theorem foldl_mergeStep_error (fuel : Nat) :
    ∀ (files : List (String × Option Value)) (acc : Except Err Value) (e : Err),
      files.foldl (NitroDataStore.mergeStep fuel) acc = .error e →
      acc = .error e ∨ e = .fuelOut := by
  intro files
  induction files with
  | nil => intro acc e h; exact Or.inl h
  | cons f files ih =>
    intro acc e h
    rw [List.foldl_cons] at h
    rcases ih _ e h with hstep | hfuel
    · cases hf2 : f.2 with
      | none =>
        simp only [NitroDataStore.mergeStep, hf2] at hstep
        exact Or.inl hstep
      | some v =>
        cases hacc : acc with
        | error e' =>
          simp only [NitroDataStore.mergeStep, hf2, hacc] at hstep
          exact Or.inl hstep
        | ok a =>
          simp only [NitroDataStore.mergeStep, hf2, hacc] at hstep
          exact Or.inr (mergeValsF_error_fuelOut fuel a v e hstep)
    · exact Or.inr hfuel

theorem mem_foldl_filterWhere :
    ∀ (ps : List (Value → Bool)) (q : Query) (x : Value),
      x ∈ (ps.foldl Query.filterWhere q).items →
      x ∈ q.items ∧ ∀ p ∈ ps, p x = true := by
  intro ps
  induction ps with
  | nil =>
    intro q x hx
    exact ⟨hx, by intro p hp; cases hp⟩
  | cons p ps ih =>
    intro q x hx
    rw [List.foldl_cons] at hx
    obtain ⟨hx', hps⟩ := ih _ x hx
    have hf := List.mem_filter.mp hx'
    refine ⟨hf.1, ?_⟩
    intro p' hp'
    rcases List.mem_cons.mp hp' with rfl | hp'
    · exact hf.2
    · exact hps p' hp'

theorem errBind {α β : Type} (e : Err) (f : α → Except Err β) :
    (Except.error e : Except Err α).bind f = .error e := rfl

theorem malformed_parsePath {s : String} (hs : MalformedPath s) :
    parsePath s = .error .invalidPath := by
  have hempty : [] ∈ splitDots s.data → parsePath s = .error .invalidPath :=
    parsePath_error_of_empty_seg
  rcases hs with h | h | h | ⟨r, h⟩ | ⟨l, h⟩ | ⟨l, r, h⟩
  · exact hempty (by rw [h]; exact List.mem_singleton_self _)
  · unfold parsePath
    rw [if_pos (List.all_eq_true.mpr h)]
  · exact hempty (by rw [h, splitDots, if_pos rfl]; exact List.mem_cons_self _ _)
  · exact hempty (by rw [h, splitDots, if_pos rfl]; exact List.mem_cons_self _ _)
  · refine hempty ?_
    rw [h, show (['.'] : List Char) = '.' :: [] from rfl, splitDots_append]
    exact List.mem_append_right _ (List.mem_singleton_self _)
  · refine hempty ?_
    rw [h, show ('.' :: '.' :: r : List Char) = '.' :: ('.' :: r) from rfl,
      splitDots_append, splitDots, if_pos rfl]
    exact List.mem_append_right _ (List.mem_cons_self _ _)

/-- C1: if merge fails with `CircularReferenceError`, the store's data after
the call is exactly what it was before — no part of the overlay has been
applied. -/
theorem C1_merge_failure_atomic (s : Store) (ho : Heap) (oid : Nat)
    (hfail : (NitroDataStore.merge s ho oid).2 = .error .circular) :
    (NitroDataStore.merge s ho oid).1 = s := by
  unfold NitroDataStore.merge at hfail ⊢
  cases hm : mergeHeap s.heap ho (s.heap.objs.length + ho.objs.length + 2)
      [] [] s.root oid with
  | ok v =>
    rw [hm] at hfail
    have h2 : (Except.ok () : Except Err Unit) = .error .circular := hfail
    cases h2
  | error e => rfl

theorem C1_witness :
    (NitroDataStore.merge storeEx overlayEx 0).2 = .error .circular ∧
    (NitroDataStore.merge storeEx overlayEx 0).1 = storeEx :=
  ⟨rfl, C1_merge_failure_atomic storeEx overlayEx 0 rfl⟩

/-- C2: building a store from (or exporting via `to_dict`) a structure with
a container reachable from itself fails with `CircularReferenceError`, and
for every acyclic structure — DAGs included — the same operations succeed. -/
theorem C2_cycle_detection (h : Heap) (r : Nat) (hwf : h.Wf)
    (hr : r < h.objs.length) :
    (HasCycleFrom h r →
      NitroDataStore.to_dict h r = .error .circular ∧
      NitroDataStore.init h r = .error .circular) ∧
    (¬ HasCycleFrom h r →
      (∃ v, NitroDataStore.to_dict h r = .ok v) ∧
      ∃ st, NitroDataStore.init h r = .ok st) := by
  have hterm : OkOrCirc (deepCopy h (h.objs.length + 1) [] r) :=
    copyTerm hwf (h.objs.length + 1) [] r List.nodup_nil
      (by intro a ha; cases ha) hr (by simp)
  constructor
  · intro hcyc
    have hne := cyc_not_ok hcyc (h.objs.length + 1) []
    cases hres : deepCopy h (h.objs.length + 1) [] r with
    | ok v => exact absurd hres (hne v)
    | error e =>
      have he : e = .circular := by rw [hres] at hterm; exact hterm
      subst he
      refine ⟨hres, ?_⟩
      unfold NitroDataStore.init
      rw [show NitroDataStore.to_dict h r = .error .circular from hres, errMap]
  · intro hnc
    have hns := copySound hnc (h.objs.length + 1) [] r (.refl r)
      (by intro a ha; cases ha)
    cases hres : deepCopy h (h.objs.length + 1) [] r with
    | error e =>
      have he : e = .circular := by rw [hres] at hterm; exact hterm
      subst he
      exact absurd hres hns
    | ok v =>
      refine ⟨⟨v, hres⟩, ?_⟩
      unfold NitroDataStore.init
      rw [show NitroDataStore.to_dict h r = .ok v from hres, okMap]
      exact ⟨_, rfl⟩

theorem C2_witness :
    NitroDataStore.to_dict hCyc 0 = .error .circular ∧
    (∃ v, NitroDataStore.to_dict hDag 0 = .ok v) ∧
    ¬ HasCycleFrom hDag 0 := by
  have hcyc : HasCycleFrom hCyc 0 :=
    ⟨0, 0, .refl 0, ⟨.dict [("a", 1), ("self", 0)], rfl, by decide⟩, .refl 0⟩
  have hdag : ¬ HasCycleFrom hDag 0 := by
    intro hc
    have hcirc := ((C2_cycle_detection hDag 0 (by decide) (by decide)).1 hc).1
    have hok : NitroDataStore.to_dict hDag 0 =
        .ok (.dict [("x", .dict [("v", .leaf .null)]),
          ("y", .dict [("v", .leaf .null)])]) := rfl
    rw [hok] at hcirc
    cases hcirc
  exact ⟨((C2_cycle_detection hCyc 0 (by decide) (by decide)).1 hcyc).1,
    ((C2_cycle_detection hDag 0 (by decide) (by decide)).2 hdag).1, hdag⟩

/-- C3: merge adds keys present only in the overlay, recursively merges keys
whose values are both Mappings, and otherwise takes the overlay's value
wholesale — sequences are replaced, never concatenated; including the two
concrete scenarios of the spec. -/
theorem C3_merge_policy :
    (∀ (fuel : Nat) (fb fo : List (String × Value)) (m : Value),
      mergeValsF (fuel + 1) (.dict fb) (.dict fo) = .ok m →
      ∃ fs, m = .dict fs ∧
        ∀ k : String,
          (lookupV fb k = none → lookupV fs k = lookupV fo k) ∧
          (∀ vb, lookupV fb k = some vb → lookupV fo k = none →
            lookupV fs k = some vb) ∧
          (∀ vb vo, lookupV fb k = some vb → lookupV fo k = some vo →
            ∃ w, mergeValsF fuel vb vo = .ok w ∧ lookupV fs k = some w ∧
              ((∃ gb go, vb = .dict gb ∧ vo = .dict go) ∨ w = vo))) ∧
    mergeValsF 2 (.dict [("a", .dict [("x", .leaf (.intV 1))])])
        (.dict [("a", .dict [("y", .leaf (.intV 2))])]) =
      .ok (.dict [("a", .dict [("x", .leaf (.intV 1)), ("y", .leaf (.intV 2))])]) ∧
    mergeValsF 2 (.dict [("a", .arr [.leaf (.intV 1), .leaf (.intV 2)])])
        (.dict [("a", .arr [.leaf (.intV 3)])]) =
      .ok (.dict [("a", .arr [.leaf (.intV 3)])]) := by
  refine ⟨?_, rfl, rfl⟩
  intro fuel fb fo m hm
  rw [mergeValsF] at hm
  obtain ⟨merged, hseq, rfl⟩ := exMap_ok hm
  refine ⟨merged ++ fo.filter (fun ko => (lookupV fb ko.1).isNone), rfl, ?_⟩
  intro k
  have hlp := merge_fields_lookup fuel fo fb merged hseq k
  refine ⟨?_, ?_, ?_⟩
  · intro hbn
    rw [lookupV_append_right (hlp.1 hbn), lookupV_filter_isNone hbn]
  · intro vb hvb hfon
    have hv2 := hlp.2 vb hvb
    rw [hfon] at hv2
    exact lookupV_append_left hv2 _
  · intro vb vo hvb hfos
    have hv2 := hlp.2 vb hvb
    rw [hfos] at hv2
    obtain ⟨w, hw, hl⟩ := hv2
    exact ⟨w, hw, lookupV_append_left hl _, mergeValsF_not_dicts hw⟩

theorem C3_witness :
    ∃ w, mergeValsF 1 (.dict [("x", .leaf (.intV 1))])
        (.dict [("y", .leaf (.intV 2))]) = .ok w ∧
      lookupV [("a", .dict [("x", .leaf (.intV 1)), ("y", .leaf (.intV 2))])]
        "a" = some w := by
  obtain ⟨fs, hfs, hk⟩ := C3_merge_policy.1 1
    [("a", .dict [("x", .leaf (.intV 1))])]
    [("a", .dict [("y", .leaf (.intV 2))])]
    (.dict [("a", .dict [("x", .leaf (.intV 1)), ("y", .leaf (.intV 2))])]) rfl
  obtain ⟨w, hw, hl, -⟩ := (hk "a").2.2 (.dict [("x", .leaf (.intV 1))])
    (.dict [("y", .leaf (.intV 2))]) rfl rfl
  have hfs2 : [("a", Value.dict [("x", .leaf (.intV 1)), ("y", .leaf (.intV 2))])] = fs := by
    injection hfs
  rw [← hfs2] at hl
  exact ⟨w, hw, hl⟩

/-- C4 counterexample: `transform_all` does not mutate the store in place —
at a concrete input the store's data after the call is the original data,
not the transformed data. -/
theorem C4_counterexample :
    (NitroDataStore.transform_all 2 exC4 fC4).1 = exC4 ∧
    (NitroDataStore.transform_all 2 exC4 fC4).2 =
      .dict [("name", .leaf (.str "y"))] ∧
    (NitroDataStore.transform_all 2 exC4 fC4).1 ≠
      (NitroDataStore.transform_all 2 exC4 fC4).2 := by
  refine ⟨rfl, rfl, ?_⟩
  intro hcontra
  have hx : (Value.dict [("name", .leaf (.str "x"))]) =
      .dict [("name", .leaf (.str "y"))] := hcontra
  have hs := congrArg (fun v => match v with
    | Value.dict ((_, .leaf (.str s)) :: _) => s
    | _ => "") hx
  exact absurd hs (by decide)

/-- C4 amended: `transform_all` and `transform_keys` leave the calling
store's data unchanged and return a new store holding the transformed data;
the transformation is applied to the returned store, not to the original. -/
theorem C4_amended :
    (∀ (fuel : Nat) (d : Value) (f : String → Value → Value),
      (NitroDataStore.transform_all fuel d f).1 = d ∧
      (NitroDataStore.transform_all fuel d f).2 = taux f fuel [] d) ∧
    (∀ (fuel : Nat) (d : Value) (g : String → String),
      (NitroDataStore.transform_keys fuel d g).1 = d ∧
      (NitroDataStore.transform_keys fuel d g).2 = tkeys g fuel d) ∧
    (NitroDataStore.transform_all 3
        (.dict [("site", .dict [("name", .leaf (.str "a"))])])
        (fun _ v => match v with
          | .leaf (.str s) => .leaf (.str (s ++ "!"))
          | w => w)).2 =
      .dict [("site", .dict [("name", .leaf (.str "a!"))])] :=
  ⟨fun _ _ _ => ⟨rfl, rfl⟩, fun _ _ _ => ⟨rfl, rfl⟩, rfl⟩

/-- C5 counterexample: a directory containing a file that fails to decode
loads successfully — the decode failure is not raised to the caller of
`from_directory`. -/
theorem C5_counterexample :
    NitroDataStore.from_directory 5 dirC5 =
      .ok (.dict [("valid", .leaf (.boolV true))]) ∧
    ∀ e, NitroDataStore.from_directory 5 dirC5 ≠ .error e := by
  refine ⟨rfl, ?_⟩
  intro e hcontra
  have h2 : (Except.ok (Value.dict [("valid", .leaf (.boolV true))]) :
      Except Err Value) = .error e := hcontra
  cases h2

/-- C5 amended: `from_directory` silently skips every file that fails to
decode — the result is the same as loading only the files that decoded, and
no decode error ever surfaces from it. -/
theorem C5_amended (fuel : Nat) (files : List (String × Option Value)) :
    NitroDataStore.from_directory fuel files =
      NitroDataStore.from_directory fuel (files.filter (fun f => f.2.isSome)) ∧
    NitroDataStore.from_directory fuel files ≠ .error .jsonDecode := by
  constructor
  · exact foldl_mergeStep_filter fuel files _
  · intro hcontra
    rcases foldl_mergeStep_error fuel files _ _ hcontra with hacc | hfuel
    · cases hacc
    · cases hfuel

/-- C6: every malformed path string — empty, whitespace-only, a lone dot, a
leading dot, a trailing dot, or consecutive dots — makes every path-taking
entry point (get, set, has, delete, find_paths) fail with
`InvalidPathError`. -/
theorem C6_invalid_paths (s : String) (hs : MalformedPath s) (d v : Value)
    (fuel : Nat) :
    NitroDataStore.get d s = .error .invalidPath ∧
    NitroDataStore.set d s v = .error .invalidPath ∧
    NitroDataStore.has d s = .error .invalidPath ∧
    NitroDataStore.delete d s = .error .invalidPath ∧
    NitroDataStore.find_paths fuel d s = .error .invalidPath := by
  have hp := malformed_parsePath hs
  refine ⟨?_, ?_, ?_, ?_, ?_⟩
  · rw [NitroDataStore.get, hp, errMap]
  · rw [NitroDataStore.set, hp, errBind]
  · rw [NitroDataStore.has, hp, errMap]
  · rw [NitroDataStore.delete, hp, errMap]
  · rw [NitroDataStore.find_paths, hp, errMap]

theorem C6_witness :
    NitroDataStore.get (.dict []) "a..b" = .error .invalidPath ∧
    NitroDataStore.set (.dict []) "a..b" (.leaf .null) = .error .invalidPath ∧
    NitroDataStore.has (.dict []) "a..b" = .error .invalidPath ∧
    NitroDataStore.delete (.dict []) "a..b" = .error .invalidPath ∧
    NitroDataStore.find_paths 3 (.dict []) "a..b" = .error .invalidPath :=
  C6_invalid_paths "a..b"
    (Or.inr (Or.inr (Or.inr (Or.inr (Or.inr ⟨['a'], ['b'], rfl⟩)))))
    (.dict []) (.leaf .null) 3

/-- C7: a successful `set` followed by `get` of the same valid path returns
the value that was set, auto-vivified intermediate mappings included. -/
theorem C7_set_get_roundtrip (d : Value) (p : String) (v d' : Value)
    (hset : NitroDataStore.set d p v = .ok d') :
    NitroDataStore.get d' p = .ok (some v) := by
  unfold NitroDataStore.set at hset
  cases hp : parsePath p with
  | error e => rw [hp, errBind] at hset; cases hset
  | ok segs =>
    rw [hp] at hset
    have hsp : setPath d segs v = .ok d' := hset
    rw [NitroDataStore.get, hp, okMap, setPath_getPath segs d v d' hsp]

theorem C7_witness :
    NitroDataStore.set (.dict []) "config.cache.ttl" (.leaf (.intV 3600)) =
      .ok (.dict [("config", .dict [("cache", .dict [("ttl",
        .leaf (.intV 3600))])])]) ∧
    NitroDataStore.get (.dict [("config", .dict [("cache", .dict [("ttl",
        .leaf (.intV 3600))])])]) "config.cache.ttl" =
      .ok (some (.leaf (.intV 3600))) :=
  ⟨rfl, C7_set_get_roundtrip (.dict []) "config.cache.ttl"
    (.leaf (.intV 3600)) _ rfl⟩

/-- C8: `find_paths "**.name"` on `{a: {name: x}, b: {c: {name: y}}}`
returns exactly `["a.name", "b.c.name"]` in depth-first order, and `**`
matches by backtracking: the rest of the pattern is tried at the current
position, and one concrete segment is consumed with `**` kept active. -/
theorem C8_doublestar_backtracking :
    NitroDataStore.find_paths 10 dataEx8 "**.name" =
      .ok ["a.name", "b.c.name"] ∧
    ∀ (fuel : Nat) (v : Value) (ps pre : List String),
      findPat (fuel + 1) v ("**" :: ps) pre =
        findPat fuel v ps pre ++
          (childrenOf v).flatMap
            (fun kc => findPat fuel kc.2 ("**" :: ps) (pre ++ [kc.1])) := by
  refine ⟨rfl, ?_⟩
  intro fuel v ps pre
  rw [findPat, if_pos rfl]

/-- C9: when the chained `where` predicates of a query over a resolved
sequence match no element, `first()` returns `None`. -/
theorem C9_first_none (d : Value) (pth : String) (q : Query)
    (ps : List (Value → Bool)) (_hq : NitroDataStore.query d pth = .ok q)
    (hnone : ∀ x ∈ q.items, ∃ p ∈ ps, p x = false) :
    Query.first (ps.foldl Query.filterWhere q) = none := by
  cases hl : (ps.foldl Query.filterWhere q).items with
  | nil => rw [Query.first, hl]; rfl
  | cons a t =>
    exfalso
    have hmem : a ∈ (ps.foldl Query.filterWhere q).items := by
      rw [hl]; exact List.mem_cons_self _ _
    obtain ⟨ha, hall⟩ := mem_foldl_filterWhere ps q a hmem
    obtain ⟨p, hp, hfalse⟩ := hnone a ha
    rw [hall p hp] at hfalse
    cases hfalse

theorem C9_witness :
    Query.first (([fun _ => false] : List (Value → Bool)).foldl
      Query.filterWhere ⟨[.leaf (.str "p1")]⟩) = none := by
  refine C9_first_none (.dict [("posts", .arr [.leaf (.str "p1")])]) "posts"
    ⟨[.leaf (.str "p1")]⟩ [fun _ => false] rfl ?_
  intro x hx
  exact ⟨fun _ => false, List.mem_singleton_self _, rfl⟩

/-- C10: the path-validation failure and the circular-reference failure are
both raised as subclasses of `ValueError`, so `except ValueError` catches
what get/has/delete/find_paths raise for bad paths and what
construction/export raise for circular data. -/
theorem C10_valueerror_catchable (d : Value) (p : String) (h : Heap)
    (r : Nat) (e : Err) (fuel : Nat) :
    (catches .valueError (classOf .invalidPath) = true ∧
      catches .valueError (classOf .circular) = true) ∧
    (NitroDataStore.get d p = .error e →
      catches .valueError (classOf e) = true) ∧
    (NitroDataStore.has d p = .error e →
      catches .valueError (classOf e) = true) ∧
    (NitroDataStore.delete d p = .error e →
      catches .valueError (classOf e) = true) ∧
    (NitroDataStore.find_paths fuel d p = .error e →
      catches .valueError (classOf e) = true) ∧
    (h.Wf → r < h.objs.length → NitroDataStore.to_dict h r = .error e →
      catches .valueError (classOf e) = true) := by
  have hmap : ∀ (β : Type) (g : List String → β),
      (parsePath p).map g = .error e → catches .valueError (classOf e) = true := by
    intro β g hg
    rw [exMap_error] at hg
    rw [parsePath_error_eq hg]
    rfl
  refine ⟨⟨rfl, rfl⟩, hmap _ _, hmap _ _, hmap _ _, hmap _ _, ?_⟩
  intro hwf hr hres
  have hterm : OkOrCirc (deepCopy h (h.objs.length + 1) [] r) :=
    copyTerm hwf (h.objs.length + 1) [] r List.nodup_nil
      (by intro a ha; cases ha) hr (by simp)
  have hres2 : deepCopy h (h.objs.length + 1) [] r = .error e := hres
  rw [hres2] at hterm
  rw [show e = Err.circular from hterm]
  rfl

theorem C10_witness :
    catches .valueError (classOf .invalidPath) = true ∧
    catches .valueError (classOf .circular) = true ∧
    NitroDataStore.get (.dict []) "a..b" = .error .invalidPath ∧
    NitroDataStore.to_dict hCyc 0 = .error .circular := by
  refine ⟨(C10_valueerror_catchable (.dict []) "a..b" hCyc 0 .invalidPath 1).2.1 rfl,
    (C10_valueerror_catchable (.dict []) "a..b" hCyc 0 .circular 1).2.2.2.2.2
      (by decide) (by decide) rfl, rfl, rfl⟩

end Nitro

